import Mathlib

/-!
Verification of the crossword constraint-satisfaction solver
(`src/crossword/generate.py`, class `CrosswordCreator`).

The puzzle data model (`Variable`, `Crossword`, `neighbors`) lives in the
repository's `crossword.py`, which is not part of the sources here; those
definitions are modelled from the specification (spec.md §3).  Everything in
`CrosswordCreator` (`enforce_node_consistency`, `revise`, `ac3`,
`consistent`, `order_domain_values`, `select_unassigned_variable`,
`backtrack`, `solve`) is translated directly from `generate.py`.

Modelling conventions:
* Python `dict`/`set` iteration order: `crossword.variables` is modelled as a
  list fixing one iteration order; `self.domains` always has exactly the
  variables as keys (no code path adds or removes a key), so it is modelled
  as a total function `Variable → List Word` together with the key list
  `c.vars`, and `len(self.domains)` is `c.vars.length`.
* Exceptions that the translated code can actually raise are modelled with
  `Except Err`: the `TypeError` from unpacking a `None` overlap in `revise`
  and `consistent`, the `UnboundLocalError`/`NameError` from the unbound
  local `queue` in `ac3` when a non-empty arc list is supplied, and the
  `IndexError` from `sorted_l[0]` in `select_unassigned_variable` when no
  variable is unassigned.
* Word indexing `w[k]` is modelled totally by `charAt` (default blank);
  in every run considered by the theorems the accessed indices are in
  range, since overlap indices of a well-formed puzzle are below the
  variable lengths and domain words are length-filtered first.
-/

/-- Modelled from the spec: a `Variable` of `crossword.py` identifies one
word slot: row `i`, column `j`, direction (`down = true` for DOWN, `false`
for ACROSS) and its `length`; equality is structural (spec.md §3). -/
structure Variable where
  i : Nat
  j : Nat
  down : Bool
  length : Nat
deriving DecidableEq

/-- A candidate word, as its list of characters. -/
abbrev Word := List Char

/-- Python `w[k]` for a word; total with a blank default.  All indexing
performed by the modelled runs is in range (see module docstring). -/
def charAt (w : Word) (k : Nat) : Char :=
  w.getD k ' '

/-- Modelled from the spec: the immutable `Crossword` puzzle of
`crossword.py`: the set of variables (as a list fixing the iteration
order), the word list, and the pairwise overlap table mapping an ordered
pair of variables to `none` (no shared cell) or the pair of character
indices of the shared cell (spec.md §3). -/
structure Crossword where
  vars : List Variable
  words : List Word
  overlaps : Variable → Variable → Option (Nat × Nat)

/-- Modelled from the spec: `Crossword.neighbors(var)` returns every other
variable sharing a cell with `var`, i.e. those `v` with `v != var` and
`overlaps[v, var]` not `None` (spec.md §3). -/
def Crossword.neighbors (c : Crossword) (var : Variable) : List Variable :=
  c.vars.filter (fun v => decide (v ≠ var) && (c.overlaps v var).isSome)

/-- The solver's mutable `self.domains`: every code path keeps exactly the
puzzle's variables as keys, so the state is the value map alone. -/
abbrev Domains := Variable → List Word

/-- Write one variable's domain entry (`self.domains[x] = ...` effects). -/
def updateD (dom : Domains) (x : Variable) (ws : List Word) : Domains :=
  fun v => if v = x then ws else dom v

/-- A (partial) assignment: a Python dict from variables to words, as an
association list in insertion order. -/
abbrev Assignment := List (Variable × Word)

/-- Python `assignment[v]` (every modelled access is to a present key). -/
def lookupA (asg : Assignment) (v : Variable) : Word :=
  match asg.find? (fun p => p.1 = v) with
  | some p => p.2
  | none => []

/-- Python `d[v] = w` on a dict: overwrite if present, else append. -/
def insertA (asg : Assignment) (v : Variable) (w : Word) : Assignment :=
  if v ∈ asg.map Prod.fst then
    asg.map (fun p => if p.1 = v then (v, w) else p)
  else
    asg ++ [(v, w)]

/-- The exceptions the translated code can raise (module docstring). -/
inductive Err where
  | typeError
  | nameError
  | indexError
deriving DecidableEq

/-- `CrosswordCreator.__init__`: each variable's domain starts as a copy of
the full word list. -/
def initDomains (c : Crossword) : Domains :=
  fun _ => c.words

/-- The inner loop of `enforce_node_consistency`: walk the snapshot
(`deepcopy_domain[var]`, first argument) and remove each wrong-length word
from the live domain entry (second argument). -/
def removeWrongLength (L : Nat) : List Word → List Word → List Word
  | [], cur => cur
  | w :: rest, cur =>
    if w.length ≠ L then removeWrongLength L rest (cur.erase w)
    else removeWrongLength L rest cur

/-- `CrosswordCreator.enforce_node_consistency` (generate.py:97-109):
for each variable, remove from its domain every word whose length differs
from the variable's length, iterating over a deep copy taken up front. -/
def enforce_node_consistency (c : Crossword) (dom : Domains) : Domains :=
  c.vars.foldl
    (fun d var => updateD d var (removeWrongLength var.length (dom var) (d var)))
    dom

/-- The inner `for word_y in self.domains[y]` loop of `revise`: stop at the
first word of `y`'s domain matching `word_x` at the overlap. -/
def hasMatch (wx : Word) (ox oy : Nat) : List Word → Bool
  | [] => false
  | wy :: rest => if charAt wx ox = charAt wy oy then true else hasMatch wx ox oy rest

/-- The outer `for word_x in copy_domain[x]` loop of `revise`: iterate the
snapshot of `x`'s domain, erasing each unsupported word from the live
domain and recording whether any removal happened. -/
def reviseLoop (x y : Variable) (ox oy : Nat) :
    List Word → Domains → Bool → Domains × Bool
  | [], dom, rev => (dom, rev)
  | wx :: rest, dom, rev =>
    if hasMatch wx ox oy (dom y) then reviseLoop x y ox oy rest dom rev
    else reviseLoop x y ox oy rest (updateD dom x ((dom x).erase wx)) true

/-- `CrosswordCreator.revise` (generate.py:111-136).  The code unpacks
`self.crossword.overlaps[x, y]` before any `None` test, so a missing
overlap raises `TypeError`; and the guard `if overlap_x:` tests the
integer's truthiness, so the whole removal loop is skipped whenever the
overlap index on `x`'s side is `0`. -/
def revise (c : Crossword) (dom : Domains) (x y : Variable) :
    Except Err (Domains × Bool) :=
  match c.overlaps x y with
  | none => .error .typeError
  | some (ox, oy) =>
    if ox ≠ 0 then .ok (reviseLoop x y ox oy (dom x) dom false)
    else .ok (dom, false)

/-- The initial worklist built by `ac3` when no arc list is supplied:
all pairs `(var1, var2)` with `var2` a neighbor of `var1` and
`overlaps[var1, var2]` not `None` (generate.py:146-151). -/
def buildQueue (c : Crossword) : List (Variable × Variable) :=
  c.vars.foldr
    (fun v1 acc =>
      ((c.neighbors v1).filterMap
        (fun v2 => if (c.overlaps v1 v2).isSome then some (v1, v2) else none)) ++ acc)
    []

/-- `CrosswordCreator.ac3` (generate.py:138-161).  `if not arcs:` builds the
default worklist when `arcs` is `None` or an empty list; for a non-empty
supplied list the local `queue` is never bound and the `while` header
raises `UnboundLocalError` (a `NameError`).  The `return True` statement
sits inside the `while` body, so at most one arc is ever dequeued: the
first arc is revised and the function immediately returns `True` (or
`False` if that single revision emptied the domain); with an empty
worklist the loop never runs and the function falls off the end,
returning Python `None` (modelled as the `none` result). -/
def ac3 (c : Crossword) (dom : Domains)
    (arcs : Option (List (Variable × Variable))) :
    Except Err (Domains × Option Bool) :=
  match arcs with
  | some (_ :: _) => .error .nameError
  | _ =>
    match buildQueue c with
    | [] => .ok (dom, none)
    | (x, y) :: _ =>
      match revise c dom x y with
      | .error e => .error e
      | .ok (dom2, b) =>
        if b then
          if (dom2 x).length = 0 then .ok (dom2, some false)
          else .ok (dom2, some true)
        else .ok (dom2, some true)

/-- One neighbor check of `consistent`: unpack `overlaps[var, n]` (raising
`TypeError` if it is `None`) and compare the two assigned words at the
overlap indices. -/
def pairCheck (c : Crossword) (asg : Assignment) (var n : Variable) :
    Except Err Bool :=
  match c.overlaps var n with
  | none => .error .typeError
  | some (x, y) => .ok (decide (charAt (lookupA asg var) x = charAt (lookupA asg n) y))

/-- The doubly nested neighbor loop of `consistent`, flattened to the list
of `(var, n)` pairs it visits: each assigned `var` paired with each of its
neighbors that is also assigned. -/
def pairsToCheck (c : Crossword) (asg : Assignment) : List (Variable × Variable) :=
  (asg.map Prod.fst).foldr
    (fun var acc =>
      (((c.neighbors var).filter (fun n => decide (n ∈ asg.map Prod.fst))).map
        (fun n => (var, n))) ++ acc)
    []

/-- Run the neighbor checks in order, returning `false` at the first
conflicting pair (Python `return False`). -/
def checkPairs (c : Crossword) (asg : Assignment) :
    List (Variable × Variable) → Except Err Bool
  | [] => .ok true
  | (var, n) :: rest =>
    match pairCheck c asg var n with
    | .error e => .error e
    | .ok true => checkPairs c asg rest
    | .ok false => .ok false

/-- `CrosswordCreator.consistent` (generate.py:173-193): the assigned words
must be pairwise distinct (`len(word) != len(set(word))` test), each
assigned word must have its variable's length, and every pair of assigned
neighboring variables must agree at the overlap indices. -/
def consistent (c : Crossword) (asg : Assignment) : Except Err Bool :=
  if ¬ (asg.map Prod.snd).Nodup then .ok false
  else if ¬ (∀ v ∈ asg.map Prod.fst, v.length = (lookupA asg v).length) then .ok false
  else checkPairs c asg (pairsToCheck c asg)

/-- The `removed` counter of `order_domain_values` for one candidate word:
sum over the unassigned neighbors of the number of their domain words that
disagree at the overlap (unpacking `overlaps[var, n]`, `TypeError` if
`None`). -/
def eliminatedFor (c : Crossword) (dom : Domains) (asg : Assignment)
    (var : Variable) (w : Word) : List Variable → Except Err Nat
  | [] => .ok 0
  | n :: rest =>
    if n ∈ asg.map Prod.fst then eliminatedFor c dom asg var w rest
    else
      match c.overlaps var n with
      | none => .error .typeError
      | some (ox, oy) =>
        match eliminatedFor c dom asg var w rest with
        | .error e => .error e
        | .ok m =>
          .ok (((dom n).filter (fun nw => decide (charAt w ox ≠ charAt nw oy))).length + m)

/-- Stable insertion of `a` after every element strictly smaller under
`lt`: together with `sortByLt` this reproduces Python's stable `sorted`. -/
def insertByLt (lt : α → α → Bool) (a : α) : List α → List α
  | [] => [a]
  | b :: rest => if lt b a then b :: insertByLt lt a rest else a :: b :: rest

/-- Stable sort by a strict comparison, equal to Python's `sorted` with the
corresponding key. -/
def sortByLt (lt : α → α → Bool) : List α → List α
  | [] => []
  | x :: xs => insertByLt lt x (sortByLt lt xs)

/-- `CrosswordCreator.order_domain_values` (generate.py:195-217).  Both the
`sorted` call and the `return` sit inside the `for words in
self.domains[var]` loop, so the function returns after scoring only the
first candidate word — a singleton list — and falls off the end (Python
`None`, modelled `none`) when the domain is empty. -/
def order_domain_values (c : Crossword) (dom : Domains) (asg : Assignment)
    (var : Variable) : Except Err (Option (List Word)) :=
  match dom var with
  | [] => .ok none
  | w :: _ =>
    match eliminatedFor c dom asg var w (c.neighbors var) with
    | .error e => .error e
    | .ok removed =>
      .ok (some ((sortByLt (fun (a b : Word × Nat) => decide (a.2 < b.2)) [(w, removed)]).map Prod.fst))

/-- `CrosswordCreator.select_unassigned_variable` (generate.py:219-236):
collect the unassigned variables with their domains in iteration order,
sort them (stably) by domain size, and take the first — `sorted_l[0]`
raises `IndexError` (modelled `none`) when every variable is assigned. -/
def select_unassigned_variable (c : Crossword) (dom : Domains)
    (asg : Assignment) : Option Variable :=
  ((sortByLt (fun (a b : Variable × List Word) => decide (a.2.length < b.2.length))
      ((c.vars.filter (fun v => decide (v ∉ asg.map Prod.fst))).map
        (fun v => (v, dom v)))).map Prod.fst).head?

/-- Number of puzzle variables missing from the assignment (the measure of
the backtracking recursion). -/
def unassignedCount (c : Crossword) (asg : Assignment) : Nat :=
  (c.vars.filter (fun v => decide (v ∉ asg.map Prod.fst))).length

/-- Modelled from the spec: the overlap table comes from an unordered-pair
mapping (spec.md §3), so definedness is symmetric across the two orders. -/
abbrev SymOverlaps (c : Crossword) : Prop :=
  ∀ v ∈ c.vars, ∀ w ∈ c.vars,
    (c.overlaps v w).isSome = true → (c.overlaps w v).isSome = true

/-- Modelled from the spec: overlaps pair two *distinct* slots sharing a
cell (spec.md §3), so no variable overlaps itself. -/
abbrev IrreflOverlaps (c : Crossword) : Prop :=
  ∀ v ∈ c.vars, c.overlaps v v = none

/-- Invariant maintained along the backtracking recursion: distinct keys,
keys among the puzzle variables, a `consistent`-approved assignment, and
every assigned word drawn from its variable's current domain. -/
def SearchInv (c : Crossword) (dom : Domains) (asg : Assignment) : Prop :=
  (asg.map Prod.fst).Nodup ∧
  (∀ v ∈ asg.map Prod.fst, v ∈ c.vars) ∧
  consistent c asg = .ok true ∧
  (∀ p ∈ asg, p.2 ∈ dom p.1)

/-- The specification's notion of a complete consistent assignment over
the word list (spec.md §3, "Invariant for a complete assignment"): every
variable assigned exactly one word drawn from the word list, all words
distinct, lengths matching, and overlapping characters equal.  Stated from
the spec's words, to be compared with what the code returns. -/
def SolutionSpec (c : Crossword) (a : Assignment) : Prop :=
  (a.map Prod.fst).Perm c.vars ∧
  (∀ p ∈ a, p.2 ∈ c.words) ∧
  (a.map Prod.snd).Nodup ∧
  (∀ p ∈ a, p.2.length = p.1.length) ∧
  (∀ p ∈ a, ∀ q ∈ a, ∀ ox oy, c.overlaps p.1 q.1 = some (ox, oy) →
    charAt p.2 ox = charAt q.2 oy)

/-- Example slot: a 2-cell ACROSS slot at the origin. -/
def vA : Variable := ⟨0, 0, false, 2⟩

/-- Example slot: a 2-cell DOWN slot crossing `vA`. -/
def vB : Variable := ⟨0, 1, true, 2⟩

def wAB : Word := ['a', 'b']

def wCB : Word := ['c', 'b']

def wCD : Word := ['c', 'd']

def wX : Word := ['x']

/-- Solvable example puzzle: `vA` and `vB` overlap at index 1 of each. -/
def cw2 : Crossword :=
  ⟨[vA, vB], [wAB, wCB],
   fun v w => if (v = vA ∧ w = vB) ∨ (v = vB ∧ w = vA) then some (1, 1) else none⟩

def solA : Assignment := [(vA, wAB), (vB, wCB)]

def domB : Domains := fun _ => [wAB, wCB]

/-- Example domains for `cw2` with an arc-inconsistent word `cd` on `vB`:
the arc `(vB, vA)` needs a revision, the arc `(vA, vB)` does not. -/
def dom3 : Domains := fun v => if v = vA then [wAB] else [wCB, wCD]

/-- Example puzzle with an overlap at index 0 on the `vA` side. -/
def cw4 : Crossword :=
  ⟨[⟨0, 0, false, 1⟩, ⟨0, 0, true, 1⟩], [['a'], ['z']],
   fun v w =>
     if (v = ⟨0, 0, false, 1⟩ ∧ w = ⟨0, 0, true, 1⟩) ∨
        (v = ⟨0, 0, true, 1⟩ ∧ w = ⟨0, 0, false, 1⟩) then some (0, 0) else none⟩

def vC : Variable := ⟨0, 0, false, 1⟩

def vD : Variable := ⟨0, 0, true, 1⟩

def dom4 : Domains := fun v => if v = vC then [['a']] else [['z']]

/-- Example puzzle with no overlaps at all and an empty word list. -/
def cw0 : Crossword := ⟨[vA], [], fun _ _ => none⟩

/-- Example puzzle with two slots sharing no cell. -/
def cw6 : Crossword := ⟨[vA, vB], [wAB, wCB], fun _ _ => none⟩

/-- One-variable puzzle with mixed-length words for node consistency. -/
def cw5 : Crossword := ⟨[vA], [wAB, wX], fun _ _ => none⟩

def dom5 : Domains := fun _ => [wAB, wX]

def dom10 : Domains := fun _ => [wAB]


theorem mem_insertByLt {α : Type} (lt : α → α → Bool) (a x : α) :
    ∀ l : List α, x ∈ insertByLt lt a l ↔ x = a ∨ x ∈ l := by
  intro l
  induction l with
  | nil => simp [insertByLt]
  | cons b rest ih =>
    simp only [insertByLt]
    by_cases h : lt b a = true
    · simp only [h, if_true, List.mem_cons, ih]
      try tauto
    · simp only [h, Bool.false_eq_true, if_false, List.mem_cons]
      try tauto

theorem mem_sortByLt {α : Type} (lt : α → α → Bool) (x : α) :
    ∀ l : List α, x ∈ sortByLt lt l ↔ x ∈ l := by
  intro l
  induction l with
  | nil => simp [sortByLt]
  | cons b rest ih =>
    simp only [sortByLt, mem_insertByLt, ih]
    simp

theorem select_eq_some_mem {c : Crossword} {dom : Domains} {asg : Assignment}
    {var : Variable} (h : select_unassigned_variable c dom asg = some var) :
    var ∈ c.vars ∧ var ∉ asg.map Prod.fst := by
  unfold select_unassigned_variable at h
  have hcons := List.eq_cons_of_mem_head? h
  have hmem : var ∈ (sortByLt (fun (a b : Variable × List Word) => decide (a.2.length < b.2.length))
      ((c.vars.filter (fun v => decide (v ∉ asg.map Prod.fst))).map
        (fun v => (v, dom v)))).map Prod.fst := by
    rw [hcons]
    exact List.mem_cons_self _ _
  simp only [List.mem_map, mem_sortByLt, List.mem_filter, decide_eq_true_eq] at hmem
  obtain ⟨p, ⟨v, hv, hpv⟩, hfst⟩ := hmem
  subst hfst
  rw [← hpv]
  refine ⟨hv.1, ?_⟩
  simp only [List.mem_map]
  exact hv.2

theorem filter_sublist_filter {α : Type} (p q : α → Bool)
    (himp : ∀ b, q b = true → p b = true) :
    ∀ l : List α, List.Sublist (l.filter q) (l.filter p) := by
  intro l
  induction l with
  | nil => simp
  | cons x rest ih =>
    by_cases hq : q x = true
    · have hp := himp x hq
      simp only [List.filter_cons, hq, hp, if_true]
      exact List.Sublist.cons₂ x ih
    · simp only [List.filter_cons, hq]
      simp only [Bool.false_eq_true, if_false]
      by_cases hp : p x = true
      · simp only [hp, if_true]
        exact List.Sublist.cons x ih
      · simp only [hp, Bool.false_eq_true, if_false]
        exact ih

theorem filter_length_lt {α : Type} (p q : α → Bool)
    (himp : ∀ b, q b = true → p b = true) :
    ∀ (l : List α) (a : α), a ∈ l → p a = true → q a = false →
      (l.filter q).length < (l.filter p).length := by
  intro l
  induction l with
  | nil => intro a ha _ _; simp at ha
  | cons x rest ih =>
    intro a ha hpa hqa
    rcases List.mem_cons.mp ha with h | h
    · subst h
      simp only [List.filter_cons, hpa, hqa, if_true, Bool.false_eq_true, if_false]
      have hle := List.Sublist.length_le (filter_sublist_filter p q himp rest)
      simp only [List.length_cons]
      omega
    · by_cases hq : q x = true
      · have hp := himp x hq
        simp only [List.filter_cons, hq, hp, if_true, List.length_cons]
        have := ih a h hpa hqa
        omega
      · simp only [List.filter_cons, hq, Bool.false_eq_true, if_false]
        have hlt := ih a h hpa hqa
        by_cases hp : p x = true
        · simp only [hp, if_true, List.length_cons]
          omega
        · simp only [hp, Bool.false_eq_true, if_false]
          exact hlt


theorem insertA_of_not_mem {asg : Assignment} {v : Variable} (w : Word)
    (h : v ∉ asg.map Prod.fst) : insertA asg v w = asg ++ [(v, w)] := by
  simp [insertA, h]

theorem insertA_keys {asg : Assignment} {v : Variable} (w : Word)
    (h : v ∉ asg.map Prod.fst) :
    (insertA asg v w).map Prod.fst = asg.map Prod.fst ++ [v] := by
  rw [insertA_of_not_mem w h]
  simp

theorem unassignedCount_insertA_lt (c : Crossword) {asg : Assignment}
    {var : Variable} (w : Word) (hv : var ∈ c.vars)
    (hna : var ∉ asg.map Prod.fst) :
    unassignedCount c (insertA asg var w) < unassignedCount c asg := by
  unfold unassignedCount
  refine filter_length_lt _ _ ?_ c.vars var hv ?_ ?_
  · intro b hb
    simp only [decide_eq_true_eq] at hb ⊢
    rw [insertA_keys w hna] at hb
    simp only [List.mem_append] at hb
    tauto
  · simp [hna]
  · simp only [decide_eq_false_iff_not, Decidable.not_not]
    rw [insertA_keys w hna]
    simp

mutual

/-- `CrosswordCreator.backtrack` (generate.py:238-257): return the
assignment once it covers every variable (`len(assignment) ==
len(self.domains)`, whose key count is the variable count); otherwise pick
an unassigned variable (`IndexError`, modelled as an error, if there is
none) and try its domain values in order.  The domain state is threaded
through and returned so that the search's (absence of) effect on
`self.domains` is part of the model. -/
def backtrack (c : Crossword) (dom : Domains) (asg : Assignment) :
    Except Err (Domains × Option Assignment) :=
  if asg.length = c.vars.length then .ok (dom, some asg)
  else
    match h : select_unassigned_variable c dom asg with
    | none => .error .indexError
    | some var => tryValues c dom asg var (select_eq_some_mem h) (dom var)
termination_by (unassignedCount c asg, 1, 0)
decreasing_by
  apply Prod.Lex.right
  apply Prod.Lex.left
  omega

/-- The `for value in self.domains[var]` loop of `backtrack`: extend a
fresh copy of the assignment with the value, keep it only if `consistent`,
recurse, and fall through to the next value when the recursive call
reports no assignment; returns `None` (modelled `none`) when the values
are exhausted. -/
def tryValues (c : Crossword) (dom : Domains) (asg : Assignment)
    (var : Variable) (hvar : var ∈ c.vars ∧ var ∉ asg.map Prod.fst) :
    List Word → Except Err (Domains × Option Assignment)
  | [] => .ok (dom, none)
  | value :: rest =>
    match consistent c (insertA asg var value) with
    | .error e => .error e
    | .ok false => tryValues c dom asg var hvar rest
    | .ok true =>
      match backtrack c dom (insertA asg var value) with
      | .error e => .error e
      | .ok (dom2, some result) => .ok (dom2, some result)
      | .ok (dom2, none) => tryValues c dom2 asg var hvar rest
termination_by values => (unassignedCount c asg, 0, values.length)
decreasing_by
  · apply Prod.Lex.right
    apply Prod.Lex.right
    simp only [List.length_cons]
    omega
  · apply Prod.Lex.left
    exact unassignedCount_insertA_lt c _ hvar.1 hvar.2
  · apply Prod.Lex.right
    apply Prod.Lex.right
    simp only [List.length_cons]
    omega

end

/-- `CrosswordCreator.solve` (generate.py:89-95): enforce node consistency,
run `ac3` (discarding its result), then backtrack from the empty
assignment; exceptions propagate, the assignment-or-`None` result is
returned. -/
def solve (c : Crossword) : Except Err (Option Assignment) :=
  match ac3 c (enforce_node_consistency c (initDomains c)) none with
  | .error e => .error e
  | .ok (dom2, _) =>
    match backtrack c dom2 [] with
    | .error e => .error e
    | .ok (_, r) => .ok r

theorem updateD_same (dom : Domains) (x : Variable) (ws : List Word) :
    updateD dom x ws x = ws := by
  simp [updateD]

theorem updateD_other (dom : Domains) (x : Variable) (ws : List Word)
    {v : Variable} (h : v ≠ x) : updateD dom x ws v = dom v := by
  simp [updateD, h]

theorem lookupA_of_mem : ∀ {asg : Assignment} {p : Variable × Word},
    (asg.map Prod.fst).Nodup → p ∈ asg → lookupA asg p.1 = p.2 := by
  intro asg
  induction asg with
  | nil => intro p _ hp; simp at hp
  | cons q rest ih =>
    intro p hnd hp
    simp only [List.map_cons, List.nodup_cons] at hnd
    rcases List.mem_cons.mp hp with h | h
    · subst h
      simp [lookupA, List.find?]
    · have hne : q.1 ≠ p.1 := by
        intro he
        exact hnd.1 (he ▸ List.mem_map_of_mem Prod.fst h)
      simp only [lookupA, List.find?]
      have : (decide (q.1 = p.1)) = false := by simpa using hne
      rw [this]
      exact ih hnd.2 h

theorem removeWrongLength_subset (L : Nat) :
    ∀ orig cur : List Word, removeWrongLength L orig cur ⊆ cur := by
  intro orig
  induction orig with
  | nil => intro cur; simp [removeWrongLength]
  | cons w rest ih =>
    intro cur
    simp only [removeWrongLength]
    by_cases h : w.length ≠ L
    · rw [if_pos h]
      exact (ih (cur.erase w)).trans (List.erase_subset w cur)
    · rw [if_neg h]
      exact ih cur

theorem removeWrongLength_eq_filter (L : Nat) :
    ∀ orig cur : List Word, cur.Nodup →
      removeWrongLength L orig cur =
        cur.filter (fun w => decide (w.length = L) || decide (w ∉ orig)) := by
  intro orig
  induction orig with
  | nil =>
    intro cur _
    simp only [removeWrongLength]
    have : ∀ w ∈ cur, (decide (w.length = L) || decide ((w : Word) ∉ ([] : List Word))) = true := by
      intro w _
      simp
    rw [List.filter_eq_self.mpr this]
  | cons w rest ih =>
    intro cur hnd
    simp only [removeWrongLength]
    by_cases h : w.length ≠ L
    · rw [if_pos h]
      rw [ih (cur.erase w) (hnd.erase w)]
      rw [List.Nodup.erase_eq_filter hnd w, List.filter_filter]
      apply List.filter_congr
      intro x _
      by_cases hxw : x = w
      · subst hxw
        simp [h]
      · simp [hxw]
    · rw [if_neg h]
      rw [ih cur hnd]
      apply List.filter_congr
      intro x _
      by_cases hxl : x.length = L
      · simp [hxl]
      · have hxw : x ≠ w := by
          intro he
          rw [he] at hxl
          omega
        simp [hxl, hxw]

theorem enforce_foldl_not_mem (dom : Domains) :
    ∀ (l : List Variable) (d : Domains) (v : Variable), v ∉ l →
      (l.foldl
        (fun d var => updateD d var (removeWrongLength var.length (dom var) (d var)))
        d) v = d v := by
  intro l
  induction l with
  | nil => intro d v _; rfl
  | cons x rest ih =>
    intro d v hv
    simp only [List.mem_cons, not_or] at hv
    simp only [List.foldl_cons]
    rw [ih _ v hv.2]
    exact updateD_other _ _ _ hv.1

theorem enforce_foldl_mem (dom : Domains) :
    ∀ (l : List Variable) (d : Domains) (v : Variable), l.Nodup → v ∈ l →
      (l.foldl
        (fun d var => updateD d var (removeWrongLength var.length (dom var) (d var)))
        d) v = removeWrongLength v.length (dom v) (d v) := by
  intro l
  induction l with
  | nil => intro d v _ hv; simp at hv
  | cons x rest ih =>
    intro d v hnd hv
    simp only [List.nodup_cons] at hnd
    simp only [List.foldl_cons]
    rcases List.mem_cons.mp hv with h | h
    · subst h
      rw [enforce_foldl_not_mem dom rest _ v hnd.1]
      rw [updateD_same]
    · rw [ih _ v hnd.2 h]
      have hvx : v ≠ x := by
        intro he
        exact hnd.1 (he ▸ h)
      rw [updateD_other _ _ _ hvx]

theorem enforce_eq_filter (c : Crossword) (dom : Domains)
    (hnd : c.vars.Nodup) {v : Variable} (hv : v ∈ c.vars)
    (hdv : (dom v).Nodup) :
    enforce_node_consistency c dom v =
      (dom v).filter (fun w => decide (w.length = v.length)) := by
  unfold enforce_node_consistency
  rw [enforce_foldl_mem dom c.vars dom v hnd hv]
  rw [removeWrongLength_eq_filter v.length (dom v) (dom v) hdv]
  apply List.filter_congr
  intro x hx
  simp [hx]

theorem enforce_subset (c : Crossword) (dom : Domains) (v : Variable) :
    enforce_node_consistency c dom v ⊆ dom v := by
  unfold enforce_node_consistency
  have main : ∀ (l : List Variable) (d : Domains), (∀ u, d u ⊆ dom u) →
      ∀ u, (l.foldl
        (fun d var => updateD d var (removeWrongLength var.length (dom var) (d var)))
        d) u ⊆ dom u := by
    intro l
    induction l with
    | nil => intro d hd u; exact hd u
    | cons x rest ih =>
      intro d hd u
      simp only [List.foldl_cons]
      apply ih
      intro u'
      by_cases hux : u' = x
      · subst hux
        rw [updateD_same]
        exact (removeWrongLength_subset _ _ _).trans (hd u')
      · rw [updateD_other _ _ _ hux]
        exact hd u'
  exact main c.vars dom (fun _ => List.Subset.refl _) v

theorem reviseLoop_fst_subset (x y : Variable) (ox oy : Nat) :
    ∀ (l : List Word) (dom : Domains) (rev : Bool) (v : Variable),
      (reviseLoop x y ox oy l dom rev).1 v ⊆ dom v := by
  intro l
  induction l with
  | nil => intro dom rev v; exact List.Subset.refl _
  | cons wx rest ih =>
    intro dom rev v
    simp only [reviseLoop]
    by_cases h : hasMatch wx ox oy (dom y) = true
    · rw [if_pos h]
      exact ih dom rev v
    · rw [if_neg h]
      refine (ih _ true v).trans ?_
      by_cases hvx : v = x
      · subst hvx
        rw [updateD_same]
        exact List.erase_subset _ _
      · rw [updateD_other _ _ _ hvx]
        exact List.Subset.refl _

theorem revise_eq_of_overlap {c : Crossword} {x y : Variable} {ox oy : Nat}
    (dom : Domains) (hov : c.overlaps x y = some (ox, oy)) :
    revise c dom x y =
      if ox ≠ 0 then .ok (reviseLoop x y ox oy (dom x) dom false)
      else .ok (dom, false) := by
  unfold revise
  rw [hov]

theorem revise_eq_of_no_overlap {c : Crossword} {x y : Variable}
    (dom : Domains) (hov : c.overlaps x y = none) :
    revise c dom x y = .error .typeError := by
  unfold revise
  rw [hov]

theorem revise_ok_subset {c : Crossword} {dom : Domains} {x y : Variable}
    {d' : Domains} {b : Bool} (h : revise c dom x y = .ok (d', b)) :
    ∀ v, d' v ⊆ dom v := by
  intro v
  cases hov : c.overlaps x y with
  | none =>
    rw [revise_eq_of_no_overlap dom hov] at h
    exact absurd h (by simp)
  | some pr =>
    obtain ⟨ox, oy⟩ := pr
    rw [revise_eq_of_overlap dom hov] at h
    by_cases hox : ox ≠ 0
    · rw [if_pos hox] at h
      simp only [Except.ok.injEq] at h
      have hd : (reviseLoop x y ox oy (dom x) dom false).1 = d' := by rw [h]
      rw [← hd]
      exact reviseLoop_fst_subset x y ox oy (dom x) dom false v
    · rw [if_neg hox] at h
      simp only [Except.ok.injEq, Prod.mk.injEq] at h
      rw [← h.1]
      exact List.Subset.refl _

theorem buildQueue_mem {c : Crossword} :
    ∀ pr ∈ buildQueue c, (c.overlaps pr.1 pr.2).isSome = true := by
  unfold buildQueue
  have main : ∀ l : List Variable, ∀ pr ∈ l.foldr
      (fun v1 acc =>
        ((c.neighbors v1).filterMap
          (fun v2 => if (c.overlaps v1 v2).isSome then some (v1, v2) else none)) ++ acc)
      [], (c.overlaps pr.1 pr.2).isSome = true := by
    intro l
    induction l with
    | nil => intro pr h; simp at h
    | cons v1 rest ih =>
      intro pr h
      simp only [List.foldr_cons, List.mem_append] at h
      rcases h with h | h
      · obtain ⟨v2, _, hv2⟩ := List.mem_filterMap.mp h
        by_cases hs : (c.overlaps v1 v2).isSome = true
        · rw [if_pos hs] at hv2
          have heq : (v1, v2) = pr := Option.some_inj.mp hv2
          rw [← heq]
          exact hs
        · rw [if_neg hs] at hv2
          exact absurd hv2 (by simp)
      · exact ih pr h
  exact main c.vars

theorem ac3_none_eq (c : Crossword) (dom : Domains) :
    ac3 c dom none =
      match buildQueue c with
      | [] => .ok (dom, none)
      | (x, y) :: _ =>
        match revise c dom x y with
        | .error e => .error e
        | .ok (dom2, b) =>
          if b then
            if (dom2 x).length = 0 then .ok (dom2, some false)
            else .ok (dom2, some true)
          else .ok (dom2, some true) := rfl

theorem ac3_cons_eq (c : Crossword) (dom : Domains) {x y : Variable}
    {tail : List (Variable × Variable)} (hq : buildQueue c = (x, y) :: tail) :
    ac3 c dom none =
      match revise c dom x y with
      | .error e => .error e
      | .ok (dom2, b) =>
        if b then
          if (dom2 x).length = 0 then .ok (dom2, some false)
          else .ok (dom2, some true)
        else .ok (dom2, some true) := by
  rw [ac3_none_eq, hq]

theorem ac3_default_ok (c : Crossword) (dom : Domains) :
    ∃ d' r, ac3 c dom none = .ok (d', r) ∧ ∀ v, d' v ⊆ dom v := by
  cases hq : buildQueue c with
  | nil =>
    rw [ac3_none_eq, hq]
    exact ⟨dom, none, rfl, fun v => List.Subset.refl _⟩
  | cons pr tail =>
    obtain ⟨x, y⟩ := pr
    rw [ac3_cons_eq c dom hq]
    have hs : (c.overlaps x y).isSome = true :=
      @buildQueue_mem c (x, y) (hq ▸ List.mem_cons_self _ _)
    obtain ⟨pr', hov⟩ := Option.isSome_iff_exists.mp hs
    obtain ⟨ox, oy⟩ := pr'
    have hrev : ∃ d2 b, revise c dom x y = .ok (d2, b) := by
      rw [revise_eq_of_overlap dom hov]
      by_cases hox : ox ≠ 0
      · rw [if_pos hox]
        exact ⟨_, _, rfl⟩
      · rw [if_neg hox]
        exact ⟨_, _, rfl⟩
    obtain ⟨d2, b, hr⟩ := hrev
    have hsub := revise_ok_subset hr
    rw [hr]
    cases b with
    | false => exact ⟨d2, some true, by simp, hsub⟩
    | true =>
      by_cases hz : (d2 x).length = 0
      · refine ⟨d2, some false, ?_, hsub⟩
        simp [hz]
      · refine ⟨d2, some true, ?_, hsub⟩
        simp [hz]

theorem mem_neighbors {c : Crossword} {var n : Variable} :
    n ∈ c.neighbors var ↔
      n ∈ c.vars ∧ n ≠ var ∧ (c.overlaps n var).isSome = true := by
  unfold Crossword.neighbors
  simp only [List.mem_filter, Bool.and_eq_true, decide_eq_true_eq]
  try tauto

theorem mem_pairsToCheck {c : Crossword} {asg : Assignment} {x y : Variable} :
    (x, y) ∈ pairsToCheck c asg ↔
      x ∈ asg.map Prod.fst ∧ y ∈ c.neighbors x ∧ y ∈ asg.map Prod.fst := by
  unfold pairsToCheck
  have main : ∀ ks : List Variable,
      (x, y) ∈ ks.foldr
        (fun var acc =>
          (((c.neighbors var).filter
            (fun n => decide (n ∈ asg.map Prod.fst))).map (fun n => (var, n))) ++ acc)
        [] ↔
      x ∈ ks ∧ y ∈ c.neighbors x ∧ y ∈ asg.map Prod.fst := by
    intro ks
    induction ks with
    | nil => simp
    | cons k rest ih =>
      rw [List.foldr_cons, List.mem_append, ih]
      constructor
      · rintro (hmem | ⟨h1, h2, h3⟩)
        · rw [List.mem_map] at hmem
          obtain ⟨n, hn, heq⟩ := hmem
          rw [List.mem_filter, decide_eq_true_eq] at hn
          simp only [Prod.mk.injEq] at heq
          obtain ⟨hkx, hny⟩ := heq
          subst hkx
          subst hny
          exact ⟨List.mem_cons_self _ _, hn.1, hn.2⟩
        · exact ⟨List.mem_cons_of_mem _ h1, h2, h3⟩
      · rintro ⟨h1, h2, h3⟩
        rcases List.mem_cons.mp h1 with h1 | h1
        · subst h1
          left
          rw [List.mem_map]
          exact ⟨y, List.mem_filter.mpr ⟨h2, by simpa using h3⟩, rfl⟩
        · exact Or.inr ⟨h1, h2, h3⟩
  exact main (asg.map Prod.fst)

theorem checkPairs_total {c : Crossword} {asg : Assignment} :
    ∀ l : List (Variable × Variable),
      (∀ pr ∈ l, (c.overlaps pr.1 pr.2).isSome = true) →
      ∃ b, checkPairs c asg l = .ok b := by
  intro l
  induction l with
  | nil => intro _; exact ⟨true, rfl⟩
  | cons pr rest ih =>
    intro hl
    obtain ⟨x, y⟩ := pr
    have hs := hl (x, y) (List.mem_cons_self _ _)
    obtain ⟨⟨ox, oy⟩, hov⟩ := Option.isSome_iff_exists.mp hs
    have hpc : pairCheck c asg x y =
        .ok (decide (charAt (lookupA asg x) ox = charAt (lookupA asg y) oy)) := by
      unfold pairCheck
      rw [hov]
    simp only [checkPairs, hpc]
    by_cases hb : decide (charAt (lookupA asg x) ox = charAt (lookupA asg y) oy) = true
    · rw [hb]
      exact ih (fun pr hpr => hl pr (List.mem_cons_of_mem _ hpr))
    · rw [Bool.eq_false_iff.mpr hb]
      exact ⟨false, rfl⟩

theorem checkPairs_true {c : Crossword} {asg : Assignment} :
    ∀ l : List (Variable × Variable), checkPairs c asg l = .ok true →
      ∀ pr ∈ l, pairCheck c asg pr.1 pr.2 = .ok true := by
  intro l
  induction l with
  | nil => intro _ pr hpr; simp at hpr
  | cons hd rest ih =>
    intro h pr hpr
    obtain ⟨x, y⟩ := hd
    simp only [checkPairs] at h
    cases hpc : pairCheck c asg x y with
    | error e => rw [hpc] at h; exact absurd h (by simp)
    | ok b =>
      rw [hpc] at h
      cases b with
      | false => exact absurd h (by simp)
      | true =>
        rcases List.mem_cons.mp hpr with hh | hh
        · subst hh
          exact hpc
        · exact ih h pr hh

theorem consistent_true_iff {c : Crossword} {asg : Assignment} :
    consistent c asg = .ok true ↔
      (asg.map Prod.snd).Nodup ∧
      (∀ v ∈ asg.map Prod.fst, v.length = (lookupA asg v).length) ∧
      checkPairs c asg (pairsToCheck c asg) = .ok true := by
  unfold consistent
  by_cases h1 : (asg.map Prod.snd).Nodup
  · rw [if_neg (by simpa using h1)]
    by_cases h2 : ∀ v ∈ asg.map Prod.fst, v.length = (lookupA asg v).length
    · rw [if_neg (by simpa using h2)]
      constructor
      · intro h
        exact ⟨h1, h2, h⟩
      · rintro ⟨_, _, h⟩
        exact h
    · rw [if_pos (by simpa using h2)]
      constructor
      · intro h; exact absurd h (by simp)
      · rintro ⟨_, hc, _⟩; exact absurd hc h2
  · rw [if_pos (by simpa using h1)]
    constructor
    · intro h; exact absurd h (by simp)
    · rintro ⟨hc, _, _⟩; exact absurd hc h1

theorem consistent_total {c : Crossword} {asg : Assignment}
    (hkeys : ∀ v ∈ asg.map Prod.fst, v ∈ c.vars) (hsym : SymOverlaps c) :
    ∃ b, consistent c asg = .ok b := by
  unfold consistent
  by_cases h1 : (asg.map Prod.snd).Nodup
  · rw [if_neg (by simpa using h1)]
    by_cases h2 : ∀ v ∈ asg.map Prod.fst, v.length = (lookupA asg v).length
    · rw [if_neg (by simpa using h2)]
      apply checkPairs_total
      intro pr hpr
      obtain ⟨x, y⟩ := pr
      obtain ⟨hx, hyn, hy⟩ := mem_pairsToCheck.mp hpr
      obtain ⟨hyv, _, hyx⟩ := mem_neighbors.mp hyn
      exact hsym y hyv x (hkeys x hx) hyx
    · rw [if_pos (by simpa using h2)]
      exact ⟨false, rfl⟩
  · rw [if_pos (by simpa using h1)]
    exact ⟨false, rfl⟩

theorem consistent_nil (c : Crossword) : consistent c [] = .ok true := by
  have h : pairsToCheck c [] = [] := rfl
  rw [consistent_true_iff]
  refine ⟨by simp, by simp, ?_⟩
  rw [h]
  rfl

theorem insertByLt_ne_nil {α : Type} (lt : α → α → Bool) (a : α) :
    ∀ l : List α, insertByLt lt a l ≠ [] := by
  intro l
  cases l with
  | nil => simp [insertByLt]
  | cons b rest =>
    simp only [insertByLt]
    by_cases h : lt b a = true
    · rw [if_pos h]; simp
    · rw [if_neg h]; simp

theorem sortByLt_eq_nil {α : Type} (lt : α → α → Bool) :
    ∀ l : List α, sortByLt lt l = [] → l = [] := by
  intro l
  cases l with
  | nil => intro _; rfl
  | cons x xs =>
    intro h
    exact absurd h (insertByLt_ne_nil lt x (sortByLt lt xs))

theorem select_eq_none {c : Crossword} {dom : Domains} {asg : Assignment}
    (h : select_unassigned_variable c dom asg = none) :
    ∀ v ∈ c.vars, v ∈ asg.map Prod.fst := by
  intro v hv
  unfold select_unassigned_variable at h
  rw [List.head?_eq_none_iff] at h
  have hs := List.map_eq_nil_iff.mp h
  have hbase := sortByLt_eq_nil _ _ hs
  have hfil := List.map_eq_nil_iff.mp hbase
  by_contra hna
  have : v ∈ (c.vars.filter (fun v => decide (v ∉ asg.map Prod.fst))) :=
    List.mem_filter.mpr ⟨hv, by simpa using hna⟩
  rw [hfil] at this
  simp at this

theorem backtrack_eq_done {c : Crossword} {dom : Domains} {asg : Assignment}
    (h : asg.length = c.vars.length) :
    backtrack c dom asg = .ok (dom, some asg) := by
  rw [backtrack.eq_def, if_pos h]

theorem backtrack_eq_select_none {c : Crossword} {dom : Domains}
    {asg : Assignment} (h1 : ¬ asg.length = c.vars.length)
    (h2 : select_unassigned_variable c dom asg = none) :
    backtrack c dom asg = .error .indexError := by
  rw [backtrack.eq_def, if_neg h1]
  split
  · rfl
  · rename_i var heq
    rw [h2] at heq
    cases heq

theorem backtrack_eq_select_some {c : Crossword} {dom : Domains}
    {asg : Assignment} {var : Variable} (h1 : ¬ asg.length = c.vars.length)
    (h2 : select_unassigned_variable c dom asg = some var) :
    backtrack c dom asg = tryValues c dom asg var (select_eq_some_mem h2) (dom var) := by
  rw [backtrack.eq_def, if_neg h1]
  split
  · rename_i heq
    rw [h2] at heq
    cases heq
  · rename_i var' heq
    have hv : var' = var := by
      rw [h2] at heq
      exact (Option.some_inj.mp heq).symm
    subst hv
    rfl

theorem tryValues_cons (c : Crossword) (dom : Domains) (asg : Assignment)
    (var : Variable) (hvar : var ∈ c.vars ∧ var ∉ asg.map Prod.fst)
    (w : Word) (rest : List Word) :
    tryValues c dom asg var hvar (w :: rest) =
      match consistent c (insertA asg var w) with
      | .error e => .error e
      | .ok false => tryValues c dom asg var hvar rest
      | .ok true =>
        match backtrack c dom (insertA asg var w) with
        | .error e => .error e
        | .ok (dom2, some result) => .ok (dom2, some result)
        | .ok (dom2, none) => tryValues c dom2 asg var hvar rest := by
  rw [tryValues.eq_def]

/-- Backtracking never touches the domain state: whenever `backtrack`
returns normally, the returned domains are exactly the input domains. -/
theorem backtrack_preserves_domains (c : Crossword) :
    ∀ (dom : Domains) (asg : Assignment) (d' : Domains)
      (r : Option Assignment), backtrack c dom asg = .ok (d', r) → d' = dom := by
  apply backtrack.induct c
    (fun dom asg => ∀ d' r, backtrack c dom asg = .ok (d', r) → d' = dom)
    (fun dom asg var hvar values =>
      ∀ d' r, tryValues c dom asg var hvar values = .ok (d', r) → d' = dom)
  · intro dom asg hlen d' r h
    rw [backtrack_eq_done hlen] at h
    simp only [Except.ok.injEq, Prod.mk.injEq] at h
    exact h.1.symm
  · intro dom asg hlen hsel d' r h
    rw [backtrack_eq_select_none hlen hsel] at h
    cases h
  · intro dom asg hlen var hsel ih d' r h
    rw [backtrack_eq_select_some hlen hsel] at h
    exact ih d' r h
  · intro dom asg var hvar d' r h
    rw [tryValues.eq_1] at h
    simp only [Except.ok.injEq, Prod.mk.injEq] at h
    exact h.1.symm
  · intro dom asg var hvar w rest e hcons d' r h
    rw [tryValues_cons, hcons] at h
    cases h
  · intro dom asg var hvar w rest hcons ih d' r h
    rw [tryValues_cons, hcons] at h
    exact ih d' r h
  · intro dom asg var hvar w rest hcons e hbt ih d' r h
    rw [tryValues_cons, hcons, hbt] at h
    cases h
  · intro dom asg var hvar w rest hcons dom2 result hbt ih d' r h
    rw [tryValues_cons, hcons, hbt] at h
    simp only [Except.ok.injEq, Prod.mk.injEq] at h
    rw [← h.1]
    exact ih dom2 (some result) hbt
  · intro dom asg var hvar w rest hcons dom2 hbt ih1 ih2 d' r h
    rw [tryValues_cons, hcons, hbt] at h
    have hd2 : dom2 = dom := ih1 dom2 none hbt
    subst hd2
    exact ih2 d' r h

theorem searchInv_nil (c : Crossword) (dom : Domains) : SearchInv c dom [] := by
  refine ⟨by simp, by simp, consistent_nil c, by simp⟩

theorem searchInv_insert {c : Crossword} {dom : Domains} {asg : Assignment}
    {var : Variable} {w : Word} (hinv : SearchInv c dom asg)
    (hvar : var ∈ c.vars ∧ var ∉ asg.map Prod.fst) (hw : w ∈ dom var)
    (hcons : consistent c (insertA asg var w) = .ok true) :
    SearchInv c dom (insertA asg var w) := by
  obtain ⟨h1, h2, _, h4⟩ := hinv
  rw [insertA_of_not_mem w hvar.2] at hcons ⊢
  refine ⟨?_, ?_, hcons, ?_⟩
  · simp only [List.map_append, List.map_cons, List.map_nil]
    rw [List.nodup_append]
    exact ⟨h1, List.nodup_singleton _, by simpa using hvar.2⟩
  · intro v hv
    simp only [List.map_append, List.map_cons, List.map_nil, List.mem_append,
      List.mem_singleton] at hv
    rcases hv with hv | hv
    · exact h2 v hv
    · exact hv ▸ hvar.1
  · intro p hp
    rcases List.mem_append.mp hp with hp | hp
    · exact h4 p hp
    · rw [List.mem_singleton] at hp
      subst hp
      exact hw

theorem no_select_none {c : Crossword} {dom : Domains} {asg : Assignment}
    (hnd : c.vars.Nodup) (hk1 : (asg.map Prod.fst).Nodup)
    (hk2 : ∀ v ∈ asg.map Prod.fst, v ∈ c.vars)
    (hlen : ¬ asg.length = c.vars.length)
    (hsel : select_unassigned_variable c dom asg = none) : False := by
  have hsub : ∀ v ∈ c.vars, v ∈ asg.map Prod.fst := select_eq_none hsel
  have hle1 : (asg.map Prod.fst).length ≤ c.vars.length :=
    (List.subperm_of_subset hk1 hk2).length_le
  have hle2 : c.vars.length ≤ (asg.map Prod.fst).length :=
    (List.subperm_of_subset hnd hsub).length_le
  rw [List.length_map] at hle1 hle2
  omega

theorem backtrack_master (c : Crossword) (hnd : c.vars.Nodup)
    (hsym : SymOverlaps c) :
    ∀ (dom : Domains) (asg : Assignment), SearchInv c dom asg →
      ∃ r, backtrack c dom asg = .ok (dom, r) ∧
        ∀ a, r = some a → SearchInv c dom a ∧ a.length = c.vars.length := by
  apply backtrack.induct c
    (fun dom asg => SearchInv c dom asg →
      ∃ r, backtrack c dom asg = .ok (dom, r) ∧
        ∀ a, r = some a → SearchInv c dom a ∧ a.length = c.vars.length)
    (fun dom asg var hvar values => SearchInv c dom asg →
      (∀ w ∈ values, w ∈ dom var) →
      ∃ r, tryValues c dom asg var hvar values = .ok (dom, r) ∧
        ∀ a, r = some a → SearchInv c dom a ∧ a.length = c.vars.length)
  · intro dom asg hlen hinv
    refine ⟨some asg, backtrack_eq_done hlen, ?_⟩
    intro a ha
    rw [Option.some_inj] at ha
    subst ha
    exact ⟨hinv, hlen⟩
  · intro dom asg hlen hsel hinv
    exact absurd hsel (fun hsel => no_select_none hnd hinv.1 hinv.2.1 hlen hsel)
  · intro dom asg hlen var hsel ih hinv
    obtain ⟨r, heq, hr⟩ := ih hinv (fun w hw => hw)
    exact ⟨r, by rw [backtrack_eq_select_some hlen hsel]; exact heq, hr⟩
  · intro dom asg var hvar hinv hvals
    refine ⟨none, tryValues.eq_1 c dom asg var hvar, ?_⟩
    intro a ha
    cases ha
  · intro dom asg var hvar w rest e hcons hinv hvals
    have hkeys : ∀ v ∈ (insertA asg var w).map Prod.fst, v ∈ c.vars := by
      intro v hv
      rw [insertA_keys w hvar.2] at hv
      rcases List.mem_append.mp hv with hv | hv
      · exact hinv.2.1 v hv
      · rw [List.mem_singleton] at hv
        exact hv ▸ hvar.1
    obtain ⟨b, hb⟩ := consistent_total hkeys hsym
    rw [hcons] at hb
    cases hb
  · intro dom asg var hvar w rest hcons ih hinv hvals
    obtain ⟨r, heq, hr⟩ := ih hinv (fun u hu => hvals u (List.mem_cons_of_mem _ hu))
    refine ⟨r, ?_, hr⟩
    rw [tryValues_cons, hcons]
    exact heq
  · intro dom asg var hvar w rest hcons e hbt ih hinv hvals
    have hinv' := searchInv_insert hinv hvar (hvals w (List.mem_cons_self _ _)) hcons
    obtain ⟨r, heq, _⟩ := ih hinv'
    rw [hbt] at heq
    cases heq
  · intro dom asg var hvar w rest hcons dom2 result hbt ih hinv hvals
    have hinv' := searchInv_insert hinv hvar (hvals w (List.mem_cons_self _ _)) hcons
    obtain ⟨r, heq, hr⟩ := ih hinv'
    rw [hbt] at heq
    simp only [Except.ok.injEq, Prod.mk.injEq] at heq
    obtain ⟨hd2, hres⟩ := heq
    refine ⟨some result, ?_, ?_⟩
    · rw [tryValues_cons, hcons, hbt, hd2]
    · intro a ha
      rw [Option.some_inj] at ha
      subst ha
      exact hr result hres.symm
  · intro dom asg var hvar w rest hcons dom2 hbt ih1 ih2 hinv hvals
    have hinv' := searchInv_insert hinv hvar (hvals w (List.mem_cons_self _ _)) hcons
    obtain ⟨r1, heq1, _⟩ := ih1 hinv'
    rw [hbt] at heq1
    simp only [Except.ok.injEq, Prod.mk.injEq] at heq1
    have hd2 : dom2 = dom := heq1.1
    subst hd2
    obtain ⟨r, heq, hr⟩ := ih2 hinv (fun u hu => hvals u (List.mem_cons_of_mem _ hu))
    refine ⟨r, ?_, hr⟩
    rw [tryValues_cons, hcons, hbt]
    exact heq

theorem consistent_true_props {c : Crossword} {asg : Assignment}
    (hc : consistent c asg = .ok true) (hk1 : (asg.map Prod.fst).Nodup)
    (hk2 : ∀ v ∈ asg.map Prod.fst, v ∈ c.vars) (hsym : SymOverlaps c)
    (hirr : IrreflOverlaps c) :
    (asg.map Prod.snd).Nodup ∧
    (∀ p ∈ asg, p.2.length = p.1.length) ∧
    (∀ p ∈ asg, ∀ q ∈ asg, ∀ ox oy, c.overlaps p.1 q.1 = some (ox, oy) →
      charAt p.2 ox = charAt q.2 oy) := by
  obtain ⟨h1, h2, h3⟩ := consistent_true_iff.mp hc
  refine ⟨h1, ?_, ?_⟩
  · intro p hp
    have := h2 p.1 (List.mem_map_of_mem Prod.fst hp)
    rw [lookupA_of_mem hk1 hp] at this
    exact this.symm
  · intro p hp q hq ox oy hov
    have hpk : p.1 ∈ asg.map Prod.fst := List.mem_map_of_mem Prod.fst hp
    have hqk : q.1 ∈ asg.map Prod.fst := List.mem_map_of_mem Prod.fst hq
    have hpv : p.1 ∈ c.vars := hk2 p.1 hpk
    have hqv : q.1 ∈ c.vars := hk2 q.1 hqk
    have hne : q.1 ≠ p.1 := by
      intro he
      rw [he] at hov
      rw [hirr p.1 hpv] at hov
      cases hov
    have hnb : q.1 ∈ c.neighbors p.1 := by
      rw [mem_neighbors]
      refine ⟨hqv, hne, ?_⟩
      apply hsym p.1 hpv q.1 hqv
      rw [hov]
      rfl
    have hpr : (p.1, q.1) ∈ pairsToCheck c asg :=
      mem_pairsToCheck.mpr ⟨hpk, hnb, hqk⟩
    have hpc := checkPairs_true _ h3 (p.1, q.1) hpr
    have hpc_eq : pairCheck c asg p.1 q.1 =
        .ok (decide (charAt (lookupA asg p.1) ox = charAt (lookupA asg q.1) oy)) := by
      unfold pairCheck
      rw [hov]
    rw [hpc_eq] at hpc
    simp only [Except.ok.injEq] at hpc
    have := of_decide_eq_true hpc
    rw [lookupA_of_mem hk1 hp, lookupA_of_mem hk1 hq] at this
    exact this

theorem solve_eq_step {c : Crossword} {dom2 : Domains} {rr : Option Bool}
    (hac : ac3 c (enforce_node_consistency c (initDomains c)) none = .ok (dom2, rr)) :
    solve c =
      match backtrack c dom2 [] with
      | .error e => .error e
      | .ok (_, r) => .ok r := by
  unfold solve
  rw [hac]

/-- C1: Backtracking soundness — under the puzzle well-formedness
conditions, any assignment returned by `solve` is complete (the assigned
variables are a permutation of the puzzle's variables, so every variable
carries exactly one word) and consistent: pairwise-distinct words,
word lengths matching the variables, and equal characters at every
defined overlap. -/
theorem claim_C1_backtracking_soundness (c : Crossword) (a : Assignment)
    (hnd : c.vars.Nodup) (hsym : SymOverlaps c) (hirr : IrreflOverlaps c)
    (h : solve c = .ok (some a)) :
    (a.map Prod.fst).Perm c.vars ∧
    (a.map Prod.snd).Nodup ∧
    (∀ p ∈ a, p.2.length = p.1.length) ∧
    (∀ p ∈ a, ∀ q ∈ a, ∀ ox oy, c.overlaps p.1 q.1 = some (ox, oy) →
      charAt p.2 ox = charAt q.2 oy) := by
  obtain ⟨dom2, rr, hac, hsub⟩ := ac3_default_ok c (enforce_node_consistency c (initDomains c))
  obtain ⟨r, hbt, hr⟩ := backtrack_master c hnd hsym dom2 [] (searchInv_nil c dom2)
  rw [solve_eq_step hac, hbt] at h
  simp only [Except.ok.injEq] at h
  obtain ⟨hinv, hlen⟩ := hr a h
  obtain ⟨hk1, hk2, hcons, _⟩ := hinv
  have hperm : (a.map Prod.fst).Perm c.vars := by
    apply List.Subperm.perm_of_length_le (List.subperm_of_subset hk1 hk2)
    rw [List.length_map]
    omega
  obtain ⟨hsnd, hlens, hchars⟩ := consistent_true_props hcons hk1 hk2 hsym hirr
  exact ⟨hperm, hsnd, hlens, hchars⟩

/-- C2: Unsatisfiability — under the puzzle well-formedness conditions, if
no complete consistent assignment over the word list exists, `solve`
returns the `None` sentinel as a normal value: no partial assignment and
none of the modelled exceptions. -/
theorem claim_C2_unsat_returns_none (c : Crossword)
    (hnd : c.vars.Nodup) (hsym : SymOverlaps c) (hirr : IrreflOverlaps c)
    (hunsat : ¬ ∃ a, SolutionSpec c a) :
    solve c = .ok none := by
  obtain ⟨dom2, rr, hac, hsub⟩ := ac3_default_ok c (enforce_node_consistency c (initDomains c))
  obtain ⟨r, hbt, hr⟩ := backtrack_master c hnd hsym dom2 [] (searchInv_nil c dom2)
  rw [solve_eq_step hac, hbt]
  cases r with
  | none => rfl
  | some a =>
    exfalso
    apply hunsat
    obtain ⟨hinv, hlen⟩ := hr a rfl
    obtain ⟨hk1, hk2, hcons, hvals⟩ := hinv
    have hperm : (a.map Prod.fst).Perm c.vars := by
      apply List.Subperm.perm_of_length_le (List.subperm_of_subset hk1 hk2)
      rw [List.length_map]
      omega
    obtain ⟨hsnd, hlens, hchars⟩ := consistent_true_props hcons hk1 hk2 hsym hirr
    refine ⟨a, hperm, ?_, hsnd, hlens, hchars⟩
    intro p hp
    have h1 : p.2 ∈ dom2 p.1 := hvals p hp
    have h2 : p.2 ∈ enforce_node_consistency c (initDomains c) p.1 := hsub p.1 h1
    have h3 : p.2 ∈ initDomains c p.1 := enforce_subset c (initDomains c) p.1 h2
    exact h3

/-- C5: Node-consistency postcondition — after `enforce_node_consistency`
each variable's domain is exactly the initial domain filtered to the words
of the variable's length. -/
theorem claim_C5_node_consistency (c : Crossword) (dom : Domains)
    (hnd : c.vars.Nodup) (hdom : ∀ v ∈ c.vars, (dom v).Nodup) :
    ∀ v ∈ c.vars, enforce_node_consistency c dom v =
      (dom v).filter (fun w => decide (w.length = v.length)) :=
  fun v hv => enforce_eq_filter c dom hnd hv (hdom v hv)

/-- C8: Search frame property — `backtrack` never mutates the per-variable
domain state: whatever domains it is started from are returned unchanged,
for every partial assignment (each tentative value lives only in the
branch-local copy of the assignment, which in this embedding is a fresh
value `insertA asg var value` never written back to the caller's
assignment). -/
theorem claim_C8_search_frame (c : Crossword) (dom : Domains)
    (asg : Assignment) (d' : Domains) (r : Option Assignment)
    (h : backtrack c dom asg = .ok (d', r)) : d' = dom :=
  backtrack_preserves_domains c dom asg d' r h

/-- C10: With no neighbors anywhere, the default worklist is empty, the
`while` loop never runs, and `ac3` falls off the end returning Python
`None` — neither `True` nor `False` — with every domain untouched. -/
theorem claim_C10_ac3_empty_worklist (c : Crossword) (dom : Domains)
    (h : ∀ v ∈ c.vars, c.neighbors v = []) :
    ac3 c dom none = .ok (dom, none) := by
  have hq : buildQueue c = [] := by
    unfold buildQueue
    have main : ∀ l : List Variable, (∀ v ∈ l, c.neighbors v = []) →
        l.foldr
          (fun v1 acc =>
            ((c.neighbors v1).filterMap
              (fun v2 => if (c.overlaps v1 v2).isSome then some (v1, v2) else none)) ++ acc)
          [] = [] := by
      intro l
      induction l with
      | nil => intro _; rfl
      | cons v rest ih =>
        intro hl
        rw [List.foldr_cons, hl v (List.mem_cons_self _ _),
          ih (fun u hu => hl u (List.mem_cons_of_mem _ hu))]
        rfl
    exact main c.vars h
  rw [ac3_none_eq, hq]

/-- Evaluation of the full pipeline on the solvable example. -/
theorem solve_cw2_eval : solve cw2 = .ok (some solA) := by
  simp only [solve]
  simp +decide [backtrack, tryValues, cw2, vA, vB, wAB, wCB, solA, ac3, buildQueue,
    Crossword.neighbors, revise, reviseLoop, hasMatch, charAt, updateD,
    initDomains, enforce_node_consistency, removeWrongLength,
    select_unassigned_variable, sortByLt, insertByLt, consistent,
    pairsToCheck, checkPairs, pairCheck, lookupA, insertA]

/-- C3: the `return True` sitting inside the `while` loop makes `ac3`
declare success after revising only the first dequeued arc.  On this
instance the initial worklist is `[(vA, vB), (vB, vA)]`; `ac3` returns
`True` with all domains untouched, even though revising the still-queued
arc `(vB, vA)` would have removed the unsupported word `cd` from `vB`'s
domain — the worklist is not processed to exhaustion. -/
theorem claim_C3_ac3_first_arc_only :
    buildQueue cw2 = [(vA, vB), (vB, vA)] ∧
    ac3 cw2 dom3 none = .ok (dom3, some true) ∧
    revise cw2 dom3 vB vA = .ok (updateD dom3 vB [wCB], true) :=
  ⟨rfl, rfl, rfl⟩

/-- C4: the guard `if overlap_x:` tests the integer 0 for truthiness, so
with overlap indices `(0, 0)` the removal loop is skipped entirely:
`revise` returns `False` and removes nothing although the word `a` in
`vC`'s domain has no support (`hasMatch` is false against `vD`'s whole
domain). -/
theorem claim_C4_revise_zero_index :
    cw4.overlaps vC vD = some (0, 0) ∧
    revise cw4 dom4 vC vD = .ok (dom4, false) ∧
    hasMatch ['a'] 0 0 (dom4 vD) = false :=
  ⟨rfl, rfl, rfl⟩

/-- C6: `revise` unpacks `overlaps[x, y]` before any `None` check, so on a
pair of variables with no shared cell it raises `TypeError` instead of
returning `False`. -/
theorem claim_C6_revise_no_overlap_raises :
    cw6.overlaps vA vB = none ∧
    revise cw6 domB vA vB = .error .typeError :=
  ⟨rfl, rfl⟩

/-- C7: with a non-empty explicit arc list, `if not arcs:` skips the
`queue` initialisation, and the `while len(queue) > 0` header hits the
unbound local `queue` (`UnboundLocalError`, a `NameError`) — the supplied
list is never used as a worklist. -/
theorem claim_C7_ac3_explicit_arcs_raises :
    ac3 cw2 dom3 (some [(vA, vB)]) = .error .nameError :=
  rfl

/-- C9: the `sorted`/`return` of `order_domain_values` sit inside the
loop over the candidate words, so with the two-word domain
`[ab, cb]` for `vA` only the first word is scored and returned as a
singleton list, and with an empty domain the function falls through
returning Python `None`. -/
theorem claim_C9_order_single_value :
    dom3 vB = [wCB, wCD] ∧
    order_domain_values cw2 dom3 [] vB = .ok (some [wCB]) ∧
    order_domain_values cw2 (fun _ => []) [] vB = .ok none :=
  ⟨rfl, rfl, rfl⟩

/-- Witness for C1 at the solvable example puzzle. -/
theorem claim_C1_witness :
    solve cw2 = .ok (some solA) ∧
    ((solA.map Prod.fst).Perm cw2.vars ∧
     (solA.map Prod.snd).Nodup ∧
     (∀ p ∈ solA, p.2.length = p.1.length) ∧
     (∀ p ∈ solA, ∀ q ∈ solA, ∀ ox oy, cw2.overlaps p.1 q.1 = some (ox, oy) →
       charAt p.2 ox = charAt q.2 oy)) :=
  ⟨solve_cw2_eval,
   claim_C1_backtracking_soundness cw2 solA (by decide) (by decide) (by decide)
     solve_cw2_eval⟩

/-- Witness for C2 at an unsatisfiable instance (empty word list). -/
theorem claim_C2_witness :
    (¬ ∃ a, SolutionSpec cw0 a) ∧ solve cw0 = .ok none := by
  have hunsat : ¬ ∃ a, SolutionSpec cw0 a := by
    rintro ⟨a, hperm, hwords, -, -, -⟩
    have hlen : a.length = 1 := by
      have := hperm.length_eq
      simpa [cw0] using this
    cases a with
    | nil => simp at hlen
    | cons p rest =>
      have := hwords p (List.mem_cons_self _ _)
      simp [cw0] at this
  exact ⟨hunsat,
    claim_C2_unsat_returns_none cw0 (by decide) (by decide) (by decide) hunsat⟩

/-- Witness for C5 at a one-variable puzzle with a wrong-length word. -/
theorem claim_C5_witness :
    cw5.vars.Nodup ∧ (∀ v ∈ cw5.vars, (dom5 v).Nodup) ∧
    (∀ v ∈ cw5.vars, enforce_node_consistency cw5 dom5 v =
      (dom5 v).filter (fun w => decide (w.length = v.length))) :=
  ⟨by decide, by decide,
   claim_C5_node_consistency cw5 dom5 (by decide) (by decide)⟩

/-- Evaluation of a backtracking run on the solvable example. -/
theorem backtrack_cw2_eval : backtrack cw2 domB [] = .ok (domB, some solA) := by
  simp +decide [backtrack, tryValues, cw2, vA, vB, wAB, wCB, solA, domB,
    select_unassigned_variable, sortByLt, insertByLt, consistent,
    pairsToCheck, checkPairs, pairCheck, lookupA, insertA, charAt,
    Crossword.neighbors]

/-- Witness for C8 at the solvable example puzzle: the domains returned by
the search are the domains it started from. -/
theorem claim_C8_witness :
    backtrack cw2 domB [] = .ok (domB, some solA) ∧ domB = domB :=
  ⟨backtrack_cw2_eval,
   claim_C8_search_frame cw2 domB [] domB (some solA) backtrack_cw2_eval⟩

/-- Witness for C10 at a puzzle with no neighbors. -/
theorem claim_C10_witness :
    (∀ v ∈ cw0.vars, cw0.neighbors v = []) ∧
    ac3 cw0 dom10 none = .ok (dom10, none) :=
  ⟨by decide, claim_C10_ac3_empty_worklist cw0 dom10 (by decide)⟩
